import Mathlib

/-!
Formal model of the `chess-academy` repository: a browser chess tutoring
application.  The repository delegates all chess rules to the external
`chess.js` library; the application layer (`src/App.tsx`, in two closely
related variants separated in the source) keeps the authoritative game
object, a derived move history, derived captured-piece tallies, click-to-move
selection state, and issues one advice request per accepted move to the
service in `src/services/geminiService.ts`.

The embedding below models:
  * the external rules engine (`chess.js`) at the level of detail the
    application uses it: construction from FEN, object-form `move`,
    `undo`, `history`, `fen`, `get`, `moves({square})`, `turn`;
  * the application layer: `updateUIState`/`updateGameState`, `makeMove`/
    `makeAMove`, `onDrop`, `onSquareClick` (both variants), `undo`/`undoMove`;
  * the advice client `getCoachAdvice` (both variants), over an abstract
    provider outcome and a concrete model of `JSON.parse`.
-/

namespace ChessAcademy

/-! ## Pieces, colors, squares -/

/-- Piece type, as in `src/types` (`'p' | 'n' | 'b' | 'r' | 'q' | 'k'`). -/
inductive PType where
  | p | n | b | r | q | k
deriving DecidableEq, Repr

/-- Side color, `'w' | 'b'`. -/
inductive Color where
  | w | b
deriving DecidableEq, Repr

/-- The opposite side. -/
def Color.other : Color → Color
  | .w => .b
  | .b => .w

/-- A piece on the board. -/
structure Piece where
  color : Color
  ptype : PType
deriving DecidableEq, Repr

/- Squares are numbered 0..63 with `sq = file + 8 * rank`
(`a1 = 0`, `h1 = 7`, `a8 = 56`, `h8 = 63`); plain `Nat` is the square type. -/

/-- The board is a list of 64 optional pieces indexed by square. -/
abbrev Board := List (Option Piece)

/-- The piece at a square (none if empty or out of range). -/
def pieceAt (b : Board) (sq : Nat) : Option Piece :=
  (b.getD sq none)

/-- File (0..7) of a square. -/
def fileOf (sq : Nat) : Nat := sq % 8

/-- Rank (0..7) of a square, rank 0 being White's first rank. -/
def rankOf (sq : Nat) : Nat := sq / 8

/-- Nat from integer file/rank coordinates. -/
def sqOf (fi ra : Int) : Nat := (fi + 8 * ra).toNat

/-- Whether integer file/rank coordinates are on the board. -/
def onBoard (fi ra : Int) : Bool := 0 ≤ fi ∧ fi < 8 ∧ 0 ≤ ra ∧ ra < 8

/-! ## Position -/

/-- Castling rights. -/
structure Castling where
  wk : Bool
  wq : Bool
  bk : Bool
  bq : Bool
deriving DecidableEq, Repr

/-- A chess position: everything a FEN string records.  This is the state
`chess.js` keeps besides its move history. -/
structure Position where
  board : Board
  turn : Color
  castling : Castling
  ep : Option Nat
  halfmoves : Nat
  fullmoves : Nat
deriving DecidableEq, Repr

/-! ## FEN serialization (`chess.js` `fen()` / constructor-from-FEN) -/

/-- FEN letter of a piece. -/
def pieceChar : Piece → Char
  | ⟨.w, .p⟩ => 'P' | ⟨.w, .n⟩ => 'N' | ⟨.w, .b⟩ => 'B'
  | ⟨.w, .r⟩ => 'R' | ⟨.w, .q⟩ => 'Q' | ⟨.w, .k⟩ => 'K'
  | ⟨.b, .p⟩ => 'p' | ⟨.b, .n⟩ => 'n' | ⟨.b, .b⟩ => 'b'
  | ⟨.b, .r⟩ => 'r' | ⟨.b, .q⟩ => 'q' | ⟨.b, .k⟩ => 'k'

/-- Piece from a FEN letter. -/
def pieceOfChar : Char → Option Piece
  | 'P' => some ⟨.w, .p⟩ | 'N' => some ⟨.w, .n⟩ | 'B' => some ⟨.w, .b⟩
  | 'R' => some ⟨.w, .r⟩ | 'Q' => some ⟨.w, .q⟩ | 'K' => some ⟨.w, .k⟩
  | 'p' => some ⟨.b, .p⟩ | 'n' => some ⟨.b, .n⟩ | 'b' => some ⟨.b, .b⟩
  | 'r' => some ⟨.b, .r⟩ | 'q' => some ⟨.b, .q⟩ | 'k' => some ⟨.b, .k⟩
  | _ => none

/-- Digit character for 1..9. -/
def digitCh (n : Nat) : Char := Char.ofNat (48 + n)

/-- Encode one rank (8 cells, file a to h) as FEN characters; the second
argument is the count of pending empty cells. -/
def encRank : List (Option Piece) → Nat → List Char
  | [], 0 => []
  | [], n + 1 => [digitCh (n + 1)]
  | none :: rest, n => encRank rest (n + 1)
  | some pc :: rest, 0 => pieceChar pc :: encRank rest 0
  | some pc :: rest, n + 1 => digitCh (n + 1) :: pieceChar pc :: encRank rest 0

/-- Decode FEN rank characters into `need` cells, returning the cells and
the remaining characters. -/
def decCells : List Char → Nat → Option (List (Option Piece) × List Char)
  | rest, 0 => some ([], rest)
  | [], _ + 1 => none
  | c :: rest, need + 1 =>
    if '1' ≤ c ∧ c ≤ '8' then
      let d := c.toNat - 48
      if d ≤ need + 1 then
        match decCells rest (need + 1 - d) with
        | some (cells, rem) => some (List.replicate d none ++ cells, rem)
        | none => none
      else none
    else
      match pieceOfChar c with
      | some pc =>
        match decCells rest need with
        | some (cells, rem) => some (some pc :: cells, rem)
        | none => none
      | none => none

/-- The 8 cells of rank `ra` (0-based from White's side) of a board. -/
def rankCells (b : Board) (ra : Nat) : List (Option Piece) :=
  (b.drop (8 * ra)).take 8

/-- FEN piece-placement field: ranks 8 down to 1 separated by `/`. -/
def encPlacement (b : Board) : List Char :=
  encRank (rankCells b 7) 0 ++ '/' :: encRank (rankCells b 6) 0 ++
  '/' :: encRank (rankCells b 5) 0 ++ '/' :: encRank (rankCells b 4) 0 ++
  '/' :: encRank (rankCells b 3) 0 ++ '/' :: encRank (rankCells b 2) 0 ++
  '/' :: encRank (rankCells b 1) 0 ++ '/' :: encRank (rankCells b 0) 0

/-- Decode the placement field: 8 ranks separated by `/`. -/
def decPlacement (cs : List Char) : Option (Board × List Char) := do
  let (r7, cs) ← decCells cs 8
  match cs with
  | '/' :: cs =>
    let (r6, cs) ← decCells cs 8
    match cs with
    | '/' :: cs =>
      let (r5, cs) ← decCells cs 8
      match cs with
      | '/' :: cs =>
        let (r4, cs) ← decCells cs 8
        match cs with
        | '/' :: cs =>
          let (r3, cs) ← decCells cs 8
          match cs with
          | '/' :: cs =>
            let (r2, cs) ← decCells cs 8
            match cs with
            | '/' :: cs =>
              let (r1, cs) ← decCells cs 8
              match cs with
              | '/' :: cs =>
                let (r0, cs) ← decCells cs 8
                some (r0 ++ r1 ++ r2 ++ r3 ++ r4 ++ r5 ++ r6 ++ r7, cs)
              | _ => none
            | _ => none
          | _ => none
        | _ => none
      | _ => none
    | _ => none
  | _ => none

/-- Castling-rights field (`KQkq` subset or `-`). -/
def encCastling (c : Castling) : List Char :=
  let s := (if c.wk then ['K'] else []) ++ (if c.wq then ['Q'] else []) ++
           (if c.bk then ['k'] else []) ++ (if c.bq then ['q'] else [])
  if s = [] then ['-'] else s

/-- Parse the castling-rights field, consuming characters until a space. -/
def decCastlingChars : List Char → Castling → Option (Castling × List Char)
  | [], acc => some (acc, [])
  | c :: rest, acc =>
    if c = ' ' then some (acc, c :: rest)
    else if c = 'K' then decCastlingChars rest { acc with wk := true }
    else if c = 'Q' then decCastlingChars rest { acc with wq := true }
    else if c = 'k' then decCastlingChars rest { acc with bk := true }
    else if c = 'q' then decCastlingChars rest { acc with bq := true }
    else if c = '-' then decCastlingChars rest acc
    else none

/-- Algebraic name of a square, e.g. square 28 is `e4`. -/
def squareName (sq : Nat) : List Char :=
  [Char.ofNat (97 + fileOf sq), Char.ofNat (49 + rankOf sq)]

/-- Parse an algebraic square name. -/
def decSquare : List Char → Option (Nat × List Char)
  | f :: r :: rest =>
    if 'a' ≤ f ∧ f ≤ 'h' ∧ '1' ≤ r ∧ r ≤ '8' then
      some ((f.toNat - 97) + 8 * (r.toNat - 49), rest)
    else none
  | _ => none

/-- En-passant field (square name or `-`). -/
def encEp : Option Nat → List Char
  | none => ['-']
  | some sq => squareName sq

/-- Parse the en-passant field. -/
def decEp : List Char → Option (Option Nat × List Char)
  | '-' :: rest => some (none, rest)
  | cs => match decSquare cs with
    | some (sq, rest) => some (some sq, rest)
    | none => none

/-- Little-endian decimal digits, by fuel (kernel-reducible). -/
def natDigitsAux : Nat → Nat → List Nat
  | 0, _ => []
  | fuel + 1, n => if n = 0 then [] else n % 10 :: natDigitsAux fuel (n / 10)

/-- Decimal digits of a natural number (most significant first). -/
def natChars (n : Nat) : List Char :=
  if n = 0 then ['0'] else ((natDigitsAux n n).reverse.map digitCh)

/-- Parse a run of decimal digits (at least one). -/
def decNatAux : List Char → Nat → Nat × List Char
  | [], acc => (acc, [])
  | c :: rest, acc =>
    if '0' ≤ c ∧ c ≤ '9' then decNatAux rest (10 * acc + (c.toNat - 48))
    else (acc, c :: rest)

/-- Parse a natural number, failing when no digit is present. -/
def decNat : List Char → Option (Nat × List Char)
  | [] => none
  | c :: rest =>
    if '0' ≤ c ∧ c ≤ '9' then some (decNatAux rest (c.toNat - 48))
    else none

/-- `chess.js` `fen()`: serialize a position to its FEN string. -/
def toFen (p : Position) : String :=
  String.mk (encPlacement p.board ++
    ' ' :: (if p.turn = Color.w then 'w' else 'b') ::
    ' ' :: encCastling p.castling ++
    ' ' :: encEp p.ep ++
    ' ' :: natChars p.halfmoves ++
    ' ' :: natChars p.fullmoves)

/-- `new Chess(fen)`: parse a FEN string into a position (none when the
constructor would throw). -/
def ofFen (s : String) : Option Position := do
  let cs := s.data
  let (b, cs) ← decPlacement cs
  match cs with
  | ' ' :: t :: cs =>
    let turn ← if t = 'w' then some Color.w else if t = 'b' then some Color.b else none
    match cs with
    | ' ' :: cs =>
      let (castl, cs) ← decCastlingChars cs ⟨false, false, false, false⟩
      match cs with
      | ' ' :: cs =>
        let (ep, cs) ← decEp cs
        match cs with
        | ' ' :: cs =>
          let (hm, cs) ← decNat cs
          match cs with
          | ' ' :: cs =>
            let (fm, cs) ← decNat cs
            match cs with
            | [] => some ⟨b, turn, castl, ep, hm, fm⟩
            | _ => none
          | _ => none
        | _ => none
      | _ => none
    | _ => none
  | _ => none

/-- The standard starting board. -/
def startBoard : Board :=
  [some ⟨.w, .r⟩, some ⟨.w, .n⟩, some ⟨.w, .b⟩, some ⟨.w, .q⟩,
   some ⟨.w, .k⟩, some ⟨.w, .b⟩, some ⟨.w, .n⟩, some ⟨.w, .r⟩] ++
  List.replicate 8 (some ⟨.w, .p⟩) ++
  List.replicate 32 none ++
  List.replicate 8 (some ⟨.b, .p⟩) ++
  [some ⟨.b, .r⟩, some ⟨.b, .n⟩, some ⟨.b, .b⟩, some ⟨.b, .q⟩,
   some ⟨.b, .k⟩, some ⟨.b, .b⟩, some ⟨.b, .n⟩, some ⟨.b, .r⟩]

/-- The standard starting position (`new Chess()`). -/
def startPos : Position :=
  ⟨startBoard, .w, ⟨true, true, true, true⟩, none, 0, 1⟩

/-! ## Attack detection -/

/-- Are the squares strictly between, walking `n` unit steps `(sx, sy)` from
`(fi, ra)`, all empty? -/
def pathClear (b : Board) (fi ra sx sy : Int) : Nat → Bool
  | 0 => true
  | n + 1 =>
    (pieceAt b (sqOf (fi + sx) (ra + sy))).isNone &&
      pathClear b (fi + sx) (ra + sy) sx sy n

/-- Does the piece `pc` standing on square `i` attack square `sq`? -/
def attacksFrom (b : Board) (i : Nat) (pc : Piece) (sq : Nat) : Bool :=
  let di : Int := (fileOf sq : Int) - (fileOf i : Int)
  let dr : Int := (rankOf sq : Int) - (rankOf i : Int)
  let adi := di.natAbs
  let adr := dr.natAbs
  let diag := adi = adr && adi ≠ 0
  let ortho := (di = 0 && dr ≠ 0) || (dr = 0 && di ≠ 0)
  let steps := max adi adr - 1
  let clear := pathClear b (fileOf i) (rankOf i) di.sign dr.sign steps
  match pc.ptype with
  | .p => (dr = (if pc.color = Color.w then (1 : Int) else -1)) && adi = 1
  | .n => (adi = 1 && adr = 2) || (adi = 2 && adr = 1)
  | .k => (adi ≤ 1 && adr ≤ 1) && !(adi = 0 && adr = 0)
  | .b => diag && clear
  | .r => ortho && clear
  | .q => (diag || ortho) && clear

/-- Is square `sq` attacked by any piece of color `c`? -/
def attackedBy (b : Board) (c : Color) (sq : Nat) : Bool :=
  (List.range 64).any fun i =>
    match pieceAt b i with
    | some pc => pc.color = c && attacksFrom b i pc sq
    | none => false

/-- The square of the king of color `c`, if present. -/
def kingSq (b : Board) (c : Color) : Option Nat :=
  (List.range 64).find? fun i => pieceAt b i = some ⟨c, .k⟩

/-! ## Move generation (the engine's `moves`) -/

/-- Internal move flag (normal, double pawn push, en passant, castling). -/
inductive MFlag where
  | normal | big | ep | castleK | castleQ
deriving DecidableEq, Repr

/-- An internal engine move descriptor. -/
structure IMove where
  fromSq : Nat
  toSq : Nat
  piece : PType
  captured : Option PType
  promotion : Option PType
  flag : MFlag
deriving DecidableEq, Repr

/-- Promotion choices generated for a pawn reaching the last rank. -/
def promoKinds : List PType := [.q, .r, .b, .n]

/-- Is `ra` the final (promotion) rank for color `c`? -/
def promoRank (c : Color) (ra : Nat) : Bool := ra = (if c = Color.w then 7 else 0)

/-- Emit a pawn move, splitting into the four promotion choices when the
destination is on the final rank (the engine's `addMove`). -/
def addPawnMove (c : Color) (sq t : Nat) (cap : Option PType) (fl : MFlag) :
    List IMove :=
  if promoRank c (rankOf t) then
    promoKinds.map fun pp => ⟨sq, t, .p, cap, some pp, .normal⟩
  else [⟨sq, t, .p, cap, none, fl⟩]

/-- Pawn moves from `sq` for color `c` (pushes, double push, captures,
en passant, promotions). -/
def pawnGen (p : Position) (sq : Nat) (c : Color) : List IMove :=
  let dir : Int := if c = Color.w then 1 else -1
  let fi : Int := fileOf sq
  let ra : Int := rankOf sq
  let startRank : Int := if c = Color.w then 1 else 6
  let singles : List IMove :=
    if onBoard fi (ra + dir) ∧ pieceAt p.board (sqOf fi (ra + dir)) = none then
      addPawnMove c sq (sqOf fi (ra + dir)) none .normal
    else []
  let doubles : List IMove :=
    if ra = startRank ∧ pieceAt p.board (sqOf fi (ra + dir)) = none ∧
        pieceAt p.board (sqOf fi (ra + 2 * dir)) = none then
      [⟨sq, sqOf fi (ra + 2 * dir), .p, none, none, .big⟩]
    else []
  let capt : Int → List IMove := fun df =>
    if onBoard (fi + df) (ra + dir) then
      let t := sqOf (fi + df) (ra + dir)
      match pieceAt p.board t with
      | some pc =>
        if pc.color = c then []
        else addPawnMove c sq t (some pc.ptype) .normal
      | none =>
        if p.ep = some t then [⟨sq, t, .p, some .p, none, .ep⟩] else []
    else []
  singles ++ doubles ++ capt (-1) ++ capt 1

/-- Knight and king single-step moves. -/
def stepGen (p : Position) (sq : Nat) (c : Color) (pt : PType)
    (offs : List (Int × Int)) : List IMove :=
  offs.filterMap fun o =>
    let fi : Int := (fileOf sq : Int) + o.1
    let ra : Int := (rankOf sq : Int) + o.2
    if onBoard fi ra then
      let t := sqOf fi ra
      match pieceAt p.board t with
      | none => some ⟨sq, t, pt, none, none, .normal⟩
      | some pc =>
        if pc.color = c then none else some ⟨sq, t, pt, some pc.ptype, none, .normal⟩
    else none

/-- Sliding moves along one direction. -/
def slideAux (b : Board) (c : Color) (src : Nat) (pt : PType)
    (fi ra df dr : Int) : Nat → List IMove
  | 0 => []
  | n + 1 =>
    let fi' := fi + df
    let ra' := ra + dr
    if onBoard fi' ra' then
      let t := sqOf fi' ra'
      match pieceAt b t with
      | none => ⟨src, t, pt, none, none, .normal⟩ :: slideAux b c src pt fi' ra' df dr n
      | some pc =>
        if pc.color = c then [] else [⟨src, t, pt, some pc.ptype, none, .normal⟩]
    else []

/-- Sliding moves along each of the given directions. -/
def slideGen (p : Position) (sq : Nat) (c : Color) (pt : PType)
    (dirs : List (Int × Int)) : List IMove :=
  dirs.flatMap fun d => slideAux p.board c sq pt (fileOf sq) (rankOf sq) d.1 d.2 7

/-- Knight move offsets. -/
def knightOffs : List (Int × Int) :=
  [(1, 2), (2, 1), (2, -1), (1, -2), (-1, -2), (-2, -1), (-2, 1), (-1, 2)]

/-- King move offsets. -/
def kingOffs : List (Int × Int) :=
  [(1, 0), (1, 1), (0, 1), (-1, 1), (-1, 0), (-1, -1), (0, -1), (1, -1)]

/-- Rook directions. -/
def rookDirs : List (Int × Int) := [(1, 0), (-1, 0), (0, 1), (0, -1)]

/-- Bishop directions. -/
def bishopDirs : List (Int × Int) := [(1, 1), (1, -1), (-1, 1), (-1, -1)]

/-- Castling moves for the king of color `c` standing on `sq`. -/
def castleGen (p : Position) (sq : Nat) (c : Color) : List IMove :=
  let them := c.other
  let fi : Int := fileOf sq
  let ra : Int := rankOf sq
  let kRight := if c = Color.w then p.castling.wk else p.castling.bk
  let qRight := if c = Color.w then p.castling.wq else p.castling.bq
  let kside :=
    kRight && onBoard (fi + 2) ra &&
    (pieceAt p.board (sqOf (fi + 1) ra)).isNone &&
    (pieceAt p.board (sqOf (fi + 2) ra)).isNone &&
    !attackedBy p.board them sq && !attackedBy p.board them (sqOf (fi + 1) ra)
  let qside :=
    qRight && onBoard (fi - 3) ra &&
    (pieceAt p.board (sqOf (fi - 1) ra)).isNone &&
    (pieceAt p.board (sqOf (fi - 2) ra)).isNone &&
    (pieceAt p.board (sqOf (fi - 3) ra)).isNone &&
    !attackedBy p.board them sq && !attackedBy p.board them (sqOf (fi - 1) ra)
  (if kside then [⟨sq, sqOf (fi + 2) ra, .k, none, none, .castleK⟩] else []) ++
  (if qside then [⟨sq, sqOf (fi - 2) ra, .k, none, none, .castleQ⟩] else [])

/-- All pseudo-legal moves of the piece `pc` standing on `sq`. -/
def genFor (p : Position) (sq : Nat) (pc : Piece) : List IMove :=
  match pc.ptype with
  | .p => pawnGen p sq pc.color
  | .n => stepGen p sq pc.color .n knightOffs
  | .b => slideGen p sq pc.color .b bishopDirs
  | .r => slideGen p sq pc.color .r rookDirs
  | .q => slideGen p sq pc.color .q (rookDirs ++ bishopDirs)
  | .k => stepGen p sq pc.color .k kingOffs ++ castleGen p sq pc.color

/-- Pseudo-legal moves from a given square: empty unless the square holds a
piece of the side to move. -/
def movesFromSq (p : Position) (sq : Nat) : List IMove :=
  match pieceAt p.board sq with
  | none => []
  | some pc => if pc.color = p.turn then genFor p sq pc else []

/-! ## Applying a move (the engine's `_makeMove`) -/

/-- Castling-rights update after a move by `us`. -/
def updateRights (cr : Castling) (us : Color) (m : IMove) : Castling :=
  let cr := if m.piece = PType.k then
      (if us = Color.w then { cr with wk := false, wq := false }
       else { cr with bk := false, bq := false })
    else cr
  if us = Color.w then
    let cr := if m.fromSq = 0 then { cr with wq := false } else cr
    let cr := if m.fromSq = 7 then { cr with wk := false } else cr
    let cr := if m.toSq = 56 ∧ m.captured = some PType.r then { cr with bq := false } else cr
    if m.toSq = 63 ∧ m.captured = some PType.r then { cr with bk := false } else cr
  else
    let cr := if m.fromSq = 56 then { cr with bq := false } else cr
    let cr := if m.fromSq = 63 then { cr with bk := false } else cr
    let cr := if m.toSq = 0 ∧ m.captured = some PType.r then { cr with wq := false } else cr
    if m.toSq = 7 ∧ m.captured = some PType.r then { cr with wk := false } else cr

/-- Apply a generated move to a position. -/
def applyMove (p : Position) (m : IMove) : Position :=
  let us := p.turn
  let moved : Piece := ⟨us, m.promotion.getD m.piece⟩
  let b1 := (p.board.set m.fromSq none).set m.toSq (some moved)
  let b2 :=
    if m.flag = MFlag.ep then
      b1.set (if us = Color.w then m.toSq - 8 else m.toSq + 8) none
    else b1
  let b3 :=
    if m.flag = MFlag.castleK then
      (b2.set (m.toSq + 1) none).set (m.toSq - 1) (some ⟨us, .r⟩)
    else if m.flag = MFlag.castleQ then
      (b2.set (m.toSq - 2) none).set (m.toSq + 1) (some ⟨us, .r⟩)
    else b2
  { board := b3
    turn := us.other
    castling := updateRights p.castling us m
    ep := if m.flag = MFlag.big then
        some (if us = Color.w then m.fromSq + 8 else m.fromSq - 8)
      else none
    halfmoves := if m.piece = PType.p ∨ m.captured.isSome then 0 else p.halfmoves + 1
    fullmoves := if us = Color.b then p.fullmoves + 1 else p.fullmoves }

/-- A pseudo-legal move is legal when the mover's king is not attacked
afterwards. -/
def legalAfter (p : Position) (m : IMove) : Bool :=
  let p' := applyMove p m
  match kingSq p'.board p.turn with
  | some ks => !attackedBy p'.board p.turn.other ks
  | none => true

/-- All legal moves of a position (the engine's `moves()`). -/
def legalMoves (p : Position) : List IMove :=
  ((List.range 64).flatMap fun sq => movesFromSq p sq).filter (legalAfter p)

/-- Legal moves from one square (the engine's `moves({ square })`). -/
def legalMovesFrom (p : Position) (sq : Nat) : List IMove :=
  (movesFromSq p sq).filter (legalAfter p)

/-- Is the side to move in check? -/
def inCheck (p : Position) : Bool :=
  match kingSq p.board p.turn with
  | some ks => attackedBy p.board p.turn.other ks
  | none => false

/-! ## Standard algebraic notation (the engine's `_moveToSan`) -/

/-- Upper-case SAN letter of a piece type. -/
def sanLetter : PType → List Char
  | .p => []
  | .n => ['N']
  | .b => ['B']
  | .r => ['R']
  | .q => ['Q']
  | .k => ['K']

/-- SAN disambiguator for a non-pawn move, following the engine: among the
legal moves of the same piece type to the same target from another origin,
prefer the file letter, then the rank digit, then the full square. -/
def disambiguator (p : Position) (m : IMove) : List Char :=
  let others := (legalMoves p).filter fun m2 =>
    decide (m2.piece = m.piece ∧ m2.toSq = m.toSq ∧ m2.fromSq ≠ m.fromSq)
  if others.isEmpty then []
  else
    let sameRank := others.any fun m2 => decide (rankOf m2.fromSq = rankOf m.fromSq)
    let sameFile := others.any fun m2 => decide (fileOf m2.fromSq = fileOf m.fromSq)
    if sameRank && sameFile then squareName m.fromSq
    else if sameFile then [Char.ofNat (49 + rankOf m.fromSq)]
    else [Char.ofNat (97 + fileOf m.fromSq)]

/-- The check (`+`) or checkmate (`#`) suffix of a move. -/
def sanSuffix (p : Position) (m : IMove) : List Char :=
  let p' := applyMove p m
  if inCheck p' then (if (legalMoves p').isEmpty then ['#'] else ['+']) else []

/-- Standard algebraic notation of a legal move of `p`. -/
def sanOf (p : Position) (m : IMove) : String :=
  let core : List Char :=
    if m.flag = MFlag.castleK then ['O', '-', 'O']
    else if m.flag = MFlag.castleQ then ['O', '-', 'O', '-', 'O']
    else
      let body :=
        if m.piece = PType.p then
          (if m.captured.isSome then [Char.ofNat (97 + fileOf m.fromSq), 'x'] else []) ++
            squareName m.toSq
        else
          sanLetter m.piece ++ disambiguator p m ++
            (if m.captured.isSome then ['x'] else []) ++ squareName m.toSq
      body ++ (match m.promotion with
        | some pp => '=' :: sanLetter pp
        | none => [])
  String.mk (core ++ sanSuffix p m)

/-! ## The engine object (`chess.js` `Chess`) -/

/-- A `chess.js` game object: the current position plus the internal history
stack (most recent first); each entry stores the SAN of the move and the
position it was played from, which `undo` restores. -/
structure Game where
  pos : Position
  hist : List (String × Position)
deriving DecidableEq, Repr

/-- `new Chess()`. -/
def startGame : Game := ⟨startPos, []⟩

/-- `game.history()`: SAN strings of the moves made on this object, in play
order. -/
def Game.historyList (g : Game) : List String :=
  (g.hist.map Prod.fst).reverse

/-- Object-form move matching: find the first legal move with the given
origin and destination whose promotion, if any, equals the supplied one. -/
def findMoveObj (ms : List IMove) (f t : Nat) (promo : Option PType) :
    Option IMove :=
  ms.find? fun m =>
    decide (m.fromSq = f ∧ m.toSq = t ∧ (m.promotion = none ∨ promo = m.promotion))

/-- `game.move({ from, to, promotion })`: none when the engine rejects the
move (it throws; the application catches), otherwise the SAN of the accepted
move together with the updated game object. -/
def Game.moveObj (g : Game) (f t : Nat) (promo : Option PType) :
    Option (String × Game) :=
  match findMoveObj (legalMoves g.pos) f t promo with
  | none => none
  | some m =>
    let san := sanOf g.pos m
    some (san, ⟨applyMove g.pos m, (san, g.pos) :: g.hist⟩)

/-- `game.undo()`: restore the previous entry of the internal history stack;
a no-op when the stack is empty. -/
def Game.undo (g : Game) : Game :=
  match g.hist with
  | [] => g
  | (_, prev) :: rest => ⟨prev, rest⟩

/-- `new Chess(game.fen())`: a fresh engine object constructed from the
serialized current position.  Its history stack is empty.  (The `getD`
default is unreachable for the well-formed positions the application holds;
see `ofFen_toFen`.) -/
def fenCopy (g : Game) : Game :=
  ⟨(ofFen (toFen g.pos)).getD g.pos, []⟩

/-! ## JSON values and `JSON.parse`

Model of the platform's `JSON.parse` used by `getCoachAdvice`: strings
(with the common escapes), integers, booleans, null, and one level of
arrays and objects — the advice response schema declares every property a
string, so flat objects cover the provider contract.  (Fractional numbers,
exponents, `\u` escapes and nested containers are rejected; no claim
involves them.)  `parse` returns `none` exactly where `JSON.parse` throws. -/

/-- An atomic JSON value. -/
inductive JVal where
  | null
  | bool (b : Bool)
  | num (n : Int)
  | str (s : String)
deriving DecidableEq, Repr

/-- A parsed JSON document. -/
inductive Json where
  | atom (v : JVal)
  | arr (xs : List JVal)
  | obj (fields : List (String × JVal))
deriving DecidableEq, Repr

/-- JSON whitespace. -/
def isWs (c : Char) : Bool := c = ' ' || c = '\n' || c = '\t' || c = '\r'

/-- Drop leading whitespace. -/
def skipWs : List Char → List Char
  | [] => []
  | c :: rest => if isWs c then skipWs rest else c :: rest

/-- Parse the remainder of a JSON string literal (after the opening quote). -/
def parseStrBody : Nat → List Char → Option (List Char × List Char)
  | 0, _ => none
  | _, [] => none
  | fuel + 1, c :: rest =>
    if c = '"' then some ([], rest)
    else if c = '\\' then
      match rest with
      | [] => none
      | e :: rest2 =>
        let d : Option Char :=
          if e = '"' then some '"'
          else if e = '\\' then some '\\'
          else if e = '/' then some '/'
          else if e = 'n' then some '\n'
          else if e = 't' then some '\t'
          else if e = 'r' then some '\r'
          else if e = 'b' then some (Char.ofNat 8)
          else if e = 'f' then some (Char.ofNat 12)
          else none
        match d with
        | some dc =>
          match parseStrBody fuel rest2 with
          | some (cs, rem) => some (dc :: cs, rem)
          | none => none
        | none => none
    else
      match parseStrBody fuel rest with
      | some (cs, rem) => some (c :: cs, rem)
      | none => none

/-- Parse a run of decimal digits. -/
def parseDigitsAux : List Char → Nat → Nat × List Char
  | [], acc => (acc, [])
  | c :: rest, acc =>
    if '0' ≤ c ∧ c ≤ '9' then parseDigitsAux rest (10 * acc + (c.toNat - 48))
    else (acc, c :: rest)

/-- Parse an atomic JSON value. -/
def parseAtom : List Char → Option (JVal × List Char)
  | [] => none
  | c :: cs =>
    if c = '"' then
      match parseStrBody (cs.length + 1) cs with
      | some (body, rem) => some (.str (String.mk body), rem)
      | none => none
    else if c = 't' then
      match cs with
      | 'r' :: 'u' :: 'e' :: rem => some (.bool true, rem)
      | _ => none
    else if c = 'f' then
      match cs with
      | 'a' :: 'l' :: 's' :: 'e' :: rem => some (.bool false, rem)
      | _ => none
    else if c = 'n' then
      match cs with
      | 'u' :: 'l' :: 'l' :: rem => some (.null, rem)
      | _ => none
    else if c = '-' then
      match cs with
      | d :: rest =>
        if '0' ≤ d ∧ d ≤ '9' then
          let r := parseDigitsAux rest (d.toNat - 48)
          some (.num (-(r.1 : Int)), r.2)
        else none
      | [] => none
    else if '0' ≤ c ∧ c ≤ '9' then
      let r := parseDigitsAux cs (c.toNat - 48)
      some (.num (r.1 : Int), r.2)
    else none

/-- Parse the members of an object after its opening brace. -/
def parseMembers : Nat → List Char → Option (List (String × JVal) × List Char)
  | 0, _ => none
  | fuel + 1, cs =>
    match skipWs cs with
    | '"' :: cs1 =>
      match parseStrBody (cs1.length + 1) cs1 with
      | some (key, rem) =>
        match skipWs rem with
        | ':' :: rem2 =>
          match parseAtom (skipWs rem2) with
          | some (v, rem3) =>
            match skipWs rem3 with
            | ',' :: rem4 =>
              match parseMembers fuel rem4 with
              | some (fs, rem5) => some ((String.mk key, v) :: fs, rem5)
              | none => none
            | '\x7d' :: rem4 => some ([(String.mk key, v)], rem4)
            | _ => none
          | none => none
        | _ => none
      | none => none
    | _ => none

/-- Parse the elements of an array after its opening bracket. -/
def parseElems : Nat → List Char → Option (List JVal × List Char)
  | 0, _ => none
  | fuel + 1, cs =>
    match parseAtom (skipWs cs) with
    | some (v, rem) =>
      match skipWs rem with
      | ',' :: rem2 =>
        match parseElems fuel rem2 with
        | some (vs, rem3) => some (v :: vs, rem3)
        | none => none
      | ']' :: rem2 => some ([v], rem2)
      | _ => none
    | none => none

/-- Parse a JSON document. -/
def parseDoc (cs0 : List Char) : Option (Json × List Char) :=
  match skipWs cs0 with
  | '\x7b' :: cs =>
    match skipWs cs with
    | '\x7d' :: rem => some (.obj [], rem)
    | _ =>
      match parseMembers (cs.length + 1) cs with
      | some (fs, rem) => some (.obj fs, rem)
      | none => none
  | '[' :: cs =>
    match skipWs cs with
    | ']' :: rem => some (.arr [], rem)
    | _ =>
      match parseElems (cs.length + 1) cs with
      | some (vs, rem) => some (.arr vs, rem)
      | none => none
  | cs =>
    match parseAtom cs with
    | some (v, rem) => some (.atom v, rem)
    | none => none

/-- `JSON.parse`: none exactly when it would throw. -/
def Json.parse (s : String) : Option Json :=
  match parseDoc s.data with
  | some (v, rem) => if skipWs rem = [] then some v else none
  | none => none

/-- Field lookup on a parsed value: `none` models JavaScript `undefined`. -/
def Json.getField (j : Json) (k : String) : Option JVal :=
  match j with
  | .obj fs => ((fs.find? fun kv => decide (kv.1 = k)).map Prod.snd)
  | _ => none

/-! ## The advice client (`getCoachAdvice`, both variants) -/

/-- What the application observes on a returned advice value: the four
properties of the `CoachAdvice` shape, each possibly absent (`undefined`)
because the source casts the parsed JSON without validating it. -/
structure JsAdvice where
  explanation : Option JVal
  suggestedMove : Option JVal
  evaluation : Option JVal
  funFact : Option JVal
deriving DecidableEq, Repr

/-- Reinterpret a parsed JSON value as a `CoachAdvice` (the unchecked
`as CoachAdvice` cast): plain field lookups, no validation. -/
def jsAdviceOfJson (j : Json) : JsAdvice :=
  ⟨j.getField "explanation", j.getField "suggestedMove",
   j.getField "evaluation", j.getField "funFact"⟩

/-- The fixed fallback explanation returned from the `catch` block. -/
def fallbackExplanation : String :=
  "I" ++ String.mk [Char.ofNat 39] ++
    "m thinking hard about the board! Keep playing while I analyze."

/-- The fixed fallback advice returned from the `catch` block. -/
def fallbackAdvice : JsAdvice :=
  ⟨some (.str fallbackExplanation), none, some (.str "neutral"), none⟩

/-- Outcome of the provider call `ai.models.generateContent`: either the
call rejects (network/auth error), or it resolves with `response.text`
(a string, possibly empty, or absent). -/
inductive Outcome where
  | failure
  | success (text : Option String)
deriving DecidableEq, Repr

/-- Model of JavaScript `String.prototype.trim`: strip leading and trailing
whitespace. -/
def jsTrim (s : String) : String :=
  String.mk (((s.data.dropWhile isWs).reverse.dropWhile isWs).reverse)

/-- First variant, `response.text || "\x7b\x7d"`: an absent or empty text is
replaced by the two-character object literal. -/
def substEmpty : Option String → String
  | none => "\x7b\x7d"
  | some s => if s = "" then "\x7b\x7d" else s

/-- First `getCoachAdvice` variant: the JSON value its `try` block produces,
`none` when that block throws. -/
def adviceAttemptA : Outcome → Option Json
  | .failure => none
  | .success t => Json.parse (jsTrim (substEmpty t))

/-- First `getCoachAdvice` variant (`const text = response.text || ...`). -/
def getCoachAdviceA (o : Outcome) : JsAdvice :=
  match adviceAttemptA o with
  | some j => jsAdviceOfJson j
  | none => fallbackAdvice

/-- Second variant: `response.text.trim()` throws on an absent text, which
the `catch` block also swallows. -/
def adviceAttemptB : Outcome → Option Json
  | .failure => none
  | .success none => none
  | .success (some s) => Json.parse (jsTrim s)

/-- Second `getCoachAdvice` variant. -/
def getCoachAdviceB (o : Outcome) : JsAdvice :=
  match adviceAttemptB o with
  | some j => jsAdviceOfJson j
  | none => fallbackAdvice

/-! ## The application layer (`App.tsx`, both variants) -/

/-- A highlight style used in `customSquareStyles`. -/
inductive HStyle where
  | captureDot
  | moveDot
  | selected
deriving DecidableEq, Repr

/-- The React state of the `App` component, plus a log of the advice
requests it has issued (one `getCoachAdvice(fen, san, turn)` call per
accepted move). -/
structure AppState where
  game : Game
  advice : Option JsAdvice
  moveHistory : List String
  capturedW : List PType
  capturedB : List PType
  moveFrom : Option Nat
  optionSquares : List (Nat × HStyle)
  requests : List (String × String × String)
deriving DecidableEq, Repr

/-- The initial application state. -/
def appInit : AppState := ⟨startGame, none, [], [], [], none, [], []⟩

/-- `countPieces`: on-board count of color `c`, type `t`. -/
def countColor (c : Color) (t : PType) (b : Board) : Nat :=
  (b.filterMap id).countP fun pc => decide (pc.color = c ∧ pc.ptype = t)

/-- The standard per-type starting count. -/
def standardCount : PType → Nat
  | .p => 8 | .r => 2 | .n => 2 | .b => 2 | .q => 1 | .k => 1

/-- Iteration order of `Object.keys(standard)`. -/
def typeOrder : List PType := [.p, .r, .n, .b, .q, .k]

/-- `getCaptured`: for each type, push `standard - count` copies (the JS
loop body runs only for a positive difference). -/
def capturedList (cnt : PType → Nat) : List PType :=
  typeOrder.flatMap fun t => List.replicate (standardCount t - cnt t) t

/-- The captured tally derived for color `c` from the board. -/
def capturedFor (c : Color) (b : Board) : List PType :=
  capturedList fun t => countColor c t b

/-- The turn string `game.turn()` passed to the advice client. -/
def turnStr : Color → String
  | .w => "w"
  | .b => "b"

/-- `makeMove` / `makeAMove` (the two variants are identical at this level):
build a fresh engine object from the current FEN, attempt the move on the
copy, and only on success install the copy, recompute the derived fields
(`updateUIState` / `updateGameState`), clear the selection, and issue the
advice request with the post-move FEN, the accepted move's SAN, and the
side to move after the move. -/
def makeMove (s : AppState) (f t : Nat) (promo : Option PType) :
    Bool × AppState :=
  match (fenCopy s.game).moveObj f t promo with
  | some (san, g2) =>
    (true,
      { game := g2
        advice := s.advice
        moveHistory := g2.historyList
        capturedW := capturedFor .w g2.pos.board
        capturedB := capturedFor .b g2.pos.board
        moveFrom := none
        optionSquares := []
        requests := s.requests ++ [(toFen g2.pos, san, turnStr g2.pos.turn)] })
  | none => (false, s)

/-- `onDrop` (both variants): drag-and-drop submits the move with the
default promotion `'q'`. -/
def onDrop (s : AppState) (f t : Nat) : Bool × AppState :=
  makeMove s f t (some .q)

/-- Highlight map built by the first variant's `onSquareClick`. -/
def optionStylesA (p : Position) (sq : Nat) : List (Nat × HStyle) :=
  ((legalMovesFrom p sq).map fun m =>
    (m.toSq, if (pieceAt p.board m.toSq).isSome then HStyle.captureDot
             else HStyle.moveDot)) ++
  [(sq, HStyle.selected)]

/-- First variant's `onSquareClick`: try the selected move first; otherwise
re-evaluate the clicked square as a new origin selection when it holds a
piece of the side to move, else clear everything. -/
def onSquareClickA (s : AppState) (sq : Nat) : AppState :=
  let tried : Option AppState :=
    match s.moveFrom with
    | some f =>
      let r := makeMove s f sq (some .q)
      if r.1 then some r.2 else none
    | none => none
  match tried with
  | some s' => s'
  | none =>
    match pieceAt s.game.pos.board sq with
    | some pc =>
      if pc.color = s.game.pos.turn then
        { s with moveFrom := some sq, optionSquares := optionStylesA s.game.pos sq }
      else { s with moveFrom := none, optionSquares := [] }
    | none => { s with moveFrom := none, optionSquares := [] }

/-- Highlight map built by the second variant's `getMoveOptions`. -/
def optionStylesB (p : Position) (sq : Nat) : List (Nat × HStyle) :=
  ((legalMovesFrom p sq).map fun m =>
    (m.toSq,
      if ((pieceAt p.board m.toSq).isSome ∧
          (pieceAt p.board m.toSq).map Piece.color ≠
            (pieceAt p.board sq).map Piece.color) then HStyle.captureDot
      else HStyle.moveDot)) ++
  [(sq, HStyle.selected)]

/-- Second variant's `getMoveOptions`: highlight the clicked square's legal
moves; report whether there were any. -/
def getMoveOptionsB (s : AppState) (sq : Nat) : Bool × AppState :=
  let ms := legalMovesFrom s.game.pos sq
  if ms.isEmpty then (false, { s with optionSquares := [] })
  else (true, { s with optionSquares := optionStylesB s.game.pos sq })

/-- Second variant's `onSquareClick`: with no selection, select the square
when it has move options; with a selection, try the move, and on failure
select the clicked square instead when it has options, else clear. -/
def onSquareClickB (s : AppState) (sq : Nat) : AppState :=
  match s.moveFrom with
  | none =>
    let r := getMoveOptionsB s sq
    if r.1 then { r.2 with moveFrom := some sq } else r.2
  | some f =>
    let r := makeMove s f sq (some .q)
    if r.1 then r.2
    else
      let r2 := getMoveOptionsB s sq
      if r2.1 then { r2.2 with moveFrom := some sq }
      else { r2.2 with moveFrom := none, optionSquares := [] }

/-- First variant's `undo` (lines 136-143): rebuild from the current FEN,
call the engine's `undo`, reinstall, recompute the derived fields, clear
the selection.  The advice is left as it is and no request is issued. -/
def appUndoA (s : AppState) : AppState :=
  let gameCopy := (fenCopy s.game).undo
  { game := gameCopy
    advice := s.advice
    moveHistory := gameCopy.historyList
    capturedW := capturedFor .w gameCopy.pos.board
    capturedB := capturedFor .b gameCopy.pos.board
    moveFrom := none
    optionSquares := []
    requests := s.requests }

/-- Second variant's `undoMove` (lines 455-463): as `appUndoA` but it also
clears the advice (`setAdvice(null)`). -/
def appUndoB (s : AppState) : AppState :=
  let gameCopy := (fenCopy s.game).undo
  { game := gameCopy
    advice := none
    moveHistory := gameCopy.historyList
    capturedW := capturedFor .w gameCopy.pos.board
    capturedB := capturedFor .b gameCopy.pos.board
    moveFrom := none
    optionSquares := []
    requests := s.requests }

/-- `reset` / `resetGame` (both variants). -/
def appReset (s : AppState) : AppState :=
  { game := startGame
    advice := none
    moveHistory := []
    capturedW := []
    capturedB := []
    moveFrom := none
    optionSquares := []
    requests := s.requests }

/-- Delivery of a resolved advice promise (`.then(setAdvice)` /
`setAdvice(newAdvice)`). -/
def resolveAdvice (s : AppState) (a : JsAdvice) : AppState :=
  { s with advice := some a }

/-- A position is well formed when its board has 64 squares and its
en-passant square is an on-board square on the third or sixth rank (the
engine's FEN validation enforces this shape).  Every position the
application holds is well formed. -/
def WFPos (p : Position) : Prop :=
  p.board.length = 64 ∧
    ∀ e, p.ep = some e → e < 64 ∧ (rankOf e = 2 ∨ rankOf e = 5)

instance (p : Position) : Decidable (WFPos p) := by
  unfold WFPos; infer_instance

/-! ## FEN round trip -/

theorem digitCh_range (n : Nat) (h1 : 1 ≤ n) (h8 : n ≤ 8) :
    '1' ≤ digitCh n ∧ digitCh n ≤ '8' := by
  interval_cases n <;> decide

theorem digitCh_val (n : Nat) (h1 : 1 ≤ n) (h8 : n ≤ 8) :
    (digitCh n).toNat - 48 = n := by
  interval_cases n <;> decide

theorem pieceChar_not_digit (pc : Piece) :
    ¬('1' ≤ pieceChar pc ∧ pieceChar pc ≤ '8') := by
  obtain ⟨c, t⟩ := pc; cases c <;> cases t <;> decide

theorem pieceOfChar_pieceChar (pc : Piece) : pieceOfChar (pieceChar pc) = some pc := by
  obtain ⟨c, t⟩ := pc; cases c <;> cases t <;> decide

theorem decCells_encRank (row : List (Option Piece)) :
    ∀ (pending : Nat) (rest : List Char), pending + row.length ≤ 8 →
      decCells (encRank row pending ++ rest) (pending + row.length) =
        some (List.replicate pending none ++ row, rest) := by
  induction row with
  | nil =>
    intro pending rest hle
    cases pending with
    | zero => simp [encRank, decCells]
    | succ n =>
      simp only [List.length_nil, Nat.add_zero] at hle ⊢
      simp only [encRank, List.cons_append, List.nil_append, decCells]
      rw [if_pos (digitCh_range (n + 1) (by omega) hle)]
      simp only [digitCh_val (n + 1) (by omega) hle]
      rw [if_pos (Nat.le_refl _)]
      simp [decCells]
  | cons cell tail ih =>
    intro pending rest hle
    cases cell with
    | none =>
      have h := ih (pending + 1) rest (by simp at hle ⊢; omega)
      have harr : pending + (List.length (none :: tail)) = (pending + 1) + tail.length := by
        simp [Nat.add_comm, Nat.add_assoc]; omega
      rw [show encRank (none :: tail) pending = encRank tail (pending + 1) from rfl,
        harr, h]
      rw [show List.replicate (pending + 1) (none : Option Piece) =
        List.replicate pending none ++ [none] from List.replicate_succ' _ _]
      simp
    | some pc =>
      have key : ∀ rest', decCells ((pieceChar pc :: encRank tail 0) ++ rest')
          (tail.length + 1) = some (some pc :: tail, rest') := by
        intro rest'
        simp only [List.cons_append, decCells]
        rw [if_neg (pieceChar_not_digit pc), pieceOfChar_pieceChar pc]
        have h := ih 0 rest' (by simp at hle ⊢; omega)
        simp only [Nat.zero_add, List.replicate_zero, List.nil_append] at h
        simp [h]
      cases pending with
      | zero =>
        have := key rest
        simpa [encRank] using this
      | succ n =>
        have hle8 : n + 1 ≤ 8 := by simp at hle; omega
        simp only [encRank, List.cons_append, decCells]
        have hcount : n + 1 + (List.length (some pc :: tail)) =
            (n + 1 + tail.length) + 1 := by simp [Nat.add_assoc, Nat.add_comm]; omega
        rw [if_pos (digitCh_range (n + 1) (by omega) hle8)]
        simp only [digitCh_val (n + 1) (by omega) hle8]
        simp only [Nat.add_eq, List.length_cons]
        rw [if_pos (by omega)]
        rw [show n + 1 + tail.length + 1 - (n + 1) = tail.length + 1 from by omega]
        rw [show (pieceChar pc :: encRank tail 0).append rest =
          (pieceChar pc :: encRank tail 0) ++ rest from rfl]
        rw [key rest]

theorem decCells_encRank8 (row : List (Option Piece)) (h : row.length = 8)
    (rest : List Char) :
    decCells (encRank row 0 ++ rest) 8 = some (row, rest) := by
  have h8 := decCells_encRank row 0 rest (by omega)
  rw [h] at h8
  simpa using h8

theorem rankCells_length (b : Board) (hb : b.length = 64) (ra : Nat) (h : ra < 8) :
    (rankCells b ra).length = 8 := by
  simp [rankCells, hb]
  omega

theorem rankCells_join (b : Board) (hb : b.length = 64) :
    rankCells b 0 ++ (rankCells b 1 ++ (rankCells b 2 ++ (rankCells b 3 ++
      (rankCells b 4 ++ (rankCells b 5 ++ (rankCells b 6 ++ rankCells b 7)))))) = b := by
  have step : ∀ k : Nat, (b.drop k).take 8 ++ (b.drop k).drop 8 = b.drop k :=
    fun k => List.take_append_drop 8 (b.drop k)
  have dd : ∀ k : Nat, (b.drop k).drop 8 = b.drop (k + 8) := by
    intro k
    rw [List.drop_drop]
    try rw [Nat.add_comm]
  have h7 : (b.drop 56).take 8 = b.drop 56 :=
    List.take_of_length_le (by simp [hb])
  simp only [rankCells]
  norm_num
  rw [h7]
  rw [show b.drop 56 = (b.drop 48).drop 8 from (dd 48).symm, step 48]
  rw [show b.drop 48 = (b.drop 40).drop 8 from (dd 40).symm, step 40]
  rw [show b.drop 40 = (b.drop 32).drop 8 from (dd 32).symm, step 32]
  rw [show b.drop 32 = (b.drop 24).drop 8 from (dd 24).symm, step 24]
  rw [show b.drop 24 = (b.drop 16).drop 8 from (dd 16).symm, step 16]
  rw [show b.drop 16 = (b.drop 8).drop 8 from (dd 8).symm, step 8]
  exact List.take_append_drop 8 b

theorem decPlacement_encPlacement (b : Board) (hb : b.length = 64)
    (rest : List Char) :
    decPlacement (encPlacement b ++ rest) = some (b, rest) := by
  have hr : ∀ ra, ra < 8 → (rankCells b ra).length = 8 := rankCells_length b hb
  simp only [encPlacement, List.append_assoc, List.cons_append]
  simp only [decPlacement]
  rw [decCells_encRank8 _ (hr 7 (by omega))]
  simp only [Option.bind_eq_bind, Option.some_bind]
  rw [decCells_encRank8 _ (hr 6 (by omega))]
  simp only [Option.some_bind]
  rw [decCells_encRank8 _ (hr 5 (by omega))]
  simp only [Option.some_bind]
  rw [decCells_encRank8 _ (hr 4 (by omega))]
  simp only [Option.some_bind]
  rw [decCells_encRank8 _ (hr 3 (by omega))]
  simp only [Option.some_bind]
  rw [decCells_encRank8 _ (hr 2 (by omega))]
  simp only [Option.some_bind]
  rw [decCells_encRank8 _ (hr 1 (by omega))]
  simp only [Option.some_bind]
  rw [decCells_encRank8 _ (hr 0 (by omega))]
  simp only [Option.some_bind]
  rw [show rankCells b 0 ++ rankCells b 1 ++ rankCells b 2 ++ rankCells b 3 ++
    rankCells b 4 ++ rankCells b 5 ++ rankCells b 6 ++ rankCells b 7 = b from by
      simpa [List.append_assoc] using rankCells_join b hb]

theorem decCastling_encCastling (c : Castling) (rest : List Char) :
    decCastlingChars (encCastling c ++ ' ' :: rest) ⟨false, false, false, false⟩ =
      some (c, ' ' :: rest) := by
  obtain ⟨k1, q1, k2, q2⟩ := c
  cases k1 <;> cases q1 <;> cases k2 <;> cases q2 <;> rfl

theorem decSquare_squareName (sq : Nat) (h : sq < 64) (rest : List Char) :
    decSquare (squareName sq ++ rest) = some (sq, rest) := by
  interval_cases sq <;> rfl

theorem decEp_encEp (ep : Option Nat) (h : ∀ e, ep = some e → e < 64)
    (rest : List Char) :
    decEp (encEp ep ++ ' ' :: rest) = some (ep, ' ' :: rest) := by
  cases ep with
  | none => rfl
  | some e =>
    have he := h e rfl
    interval_cases e <;> rfl

theorem decNatAux_digits (ds : List Nat) :
    ∀ (acc : Nat) (rest : List Char), (∀ d ∈ ds, d < 10) →
      (∀ c cs', rest = c :: cs' → ¬('0' ≤ c ∧ c ≤ '9')) →
      decNatAux (ds.map digitCh ++ rest) acc =
        (ds.foldl (fun a d => 10 * a + d) acc, rest) := by
  induction ds with
  | nil =>
    intro acc rest _ hrest
    cases rest with
    | nil => rfl
    | cons c t =>
      simp only [List.map_nil, List.nil_append, List.foldl_nil, decNatAux]
      rw [if_neg (hrest c t rfl)]
  | cons d t ih =>
    intro acc rest hds hrest
    have hd : d < 10 := hds d (by simp)
    have hrange : '0' ≤ digitCh d ∧ digitCh d ≤ '9' := by
      interval_cases d <;> decide
    have hval : (digitCh d).toNat - 48 = d := by
      interval_cases d <;> decide
    simp only [List.map_cons, List.cons_append, decNatAux]
    rw [if_pos hrange, hval]
    exact ih (10 * acc + d) rest (fun x hx => hds x (by simp [hx])) hrest

theorem foldl_digits (l : List Nat) (acc : Nat) :
    (l.reverse).foldl (fun a d => 10 * a + d) acc =
      acc * 10 ^ l.length + Nat.ofDigits 10 l := by
  induction l generalizing acc with
  | nil => simp
  | cons d t ih =>
    simp only [List.reverse_cons, List.foldl_append, List.foldl_cons,
      List.foldl_nil, ih, List.length_cons, Nat.ofDigits_cons]
    ring

theorem natDigitsAux_eq (fuel n : Nat) (h : n ≤ fuel) :
    natDigitsAux fuel n = Nat.digits 10 n := by
  induction fuel generalizing n with
  | zero =>
    interval_cases n
    simp [natDigitsAux]
  | succ f ih =>
    rw [natDigitsAux]
    split
    · rename_i h0
      subst h0
      simp
    · rename_i h0
      rw [@Nat.digits_def' 10 (by norm_num) n (by omega)]
      congr 1
      exact ih (n / 10) (by omega)

theorem decNat_natChars (n : Nat) (rest : List Char)
    (hrest : ∀ c cs', rest = c :: cs' → ¬('0' ≤ c ∧ c ≤ '9')) :
    decNat (natChars n ++ rest) = some (n, rest) := by
  by_cases h0 : n = 0
  · subst h0
    simp only [natChars, if_pos rfl, List.cons_append, List.nil_append, decNat]
    rw [if_pos (by decide)]
    have := decNatAux_digits [] 0 rest (by simp) hrest
    simpa using this
  · have hds : ∀ d ∈ Nat.digits 10 n, d < 10 := fun d hd =>
      Nat.digits_lt_base (by omega) hd
    have hne : Nat.digits 10 n ≠ [] := Nat.digits_ne_nil_iff_ne_zero.mpr h0
    have hrev : (Nat.digits 10 n).reverse ≠ [] := by
      simpa using hne
    obtain ⟨e, t, het⟩ : ∃ e t, (Nat.digits 10 n).reverse = e :: t := by
      cases hh : (Nat.digits 10 n).reverse with
      | nil => exact absurd hh hrev
      | cons e t => exact ⟨e, t, rfl⟩
    have hmem : ∀ d ∈ (Nat.digits 10 n).reverse, d < 10 := by
      intro d hd
      exact hds d (List.mem_reverse.mp hd)
    have he : e < 10 := hmem e (by rw [het]; simp)
    have ht : ∀ d ∈ t, d < 10 := fun d hd => hmem d (by rw [het]; simp [hd])
    have hrangee : '0' ≤ digitCh e ∧ digitCh e ≤ '9' := by
      interval_cases e <;> decide
    have hvale : (digitCh e).toNat - 48 = e := by
      interval_cases e <;> decide
    simp only [natChars, if_neg h0, natDigitsAux_eq n n le_rfl, het,
      List.map_cons, List.cons_append, decNat]
    rw [if_pos hrangee, hvale]
    rw [decNatAux_digits t e rest ht hrest]
    have hfold : t.foldl (fun a d => 10 * a + d) e = n := by
      have h1 : (e :: t).foldl (fun a d => 10 * a + d) 0 = n := by
        rw [← het, foldl_digits]
        simpa using Nat.ofDigits_digits 10 n
      simpa using h1
    rw [hfold]

/-- FEN round trip: for well-formed positions, `new Chess(pos.fen())`
reconstructs exactly the same position (with an empty history stack). -/
theorem ofFen_toFen (p : Position) (h : WFPos p) : ofFen (toFen p) = some p := by
  obtain ⟨hb, hep⟩ := h
  obtain ⟨b, turn, castl, ep, hm, fm⟩ := p
  simp only [WFPos] at hb hep
  simp only [toFen, ofFen, List.append_assoc, List.cons_append]
  rw [decPlacement_encPlacement b hb]
  simp only [Option.bind_eq_bind, Option.some_bind]
  have hhm : decNat (natChars hm ++ ' ' :: natChars fm) = some (hm, ' ' :: natChars fm) :=
    decNat_natChars hm (' ' :: natChars fm) (by intro c cs' hc; cases hc; decide)
  have hfm : decNat (natChars fm) = some (fm, []) := by
    have h := decNat_natChars fm [] (by intro c cs' hc; cases hc)
    simpa using h
  cases turn <;>
    (try simp only [reduceIte]) <;>
    rw [decCastling_encCastling castl] <;>
    simp only [Option.some_bind] <;>
    rw [decEp_encEp ep (fun e he => (hep e he).1)] <;>
    simp only [Option.some_bind] <;>
    rw [hhm] <;>
    simp only [Option.some_bind] <;>
    rw [hfm] <;>
    simp

/-! ## Structural facts about move generation -/

theorem sqOf_lt (fi ra : Int) (h : onBoard fi ra = true) : sqOf fi ra < 64 := by
  simp only [onBoard, decide_eq_true_eq] at h
  simp only [sqOf]
  omega

theorem rankOf_sqOf (fi ra : Int) (h : onBoard fi ra = true) :
    rankOf (sqOf fi ra) = ra.toNat := by
  simp only [onBoard, decide_eq_true_eq] at h
  have h1 : (fi + 8 * ra).toNat = fi.toNat + ra.toNat * 8 := by omega
  simp only [rankOf, sqOf, h1]
  rw [Nat.add_mul_div_right _ _ (by norm_num)]
  rw [Nat.div_eq_of_lt (by omega)]
  omega

/-- Common shape of every generated move. -/
def GenOk (sq : Nat) (m : IMove) : Prop :=
  m.fromSq = sq ∧ m.toSq < 64 ∧ (m.promotion.isSome → m.flag = MFlag.normal)

theorem addPawnMove_spec (c : Color) (sq t : Nat) (cap : Option PType)
    (fl : MFlag) : ∀ m ∈ addPawnMove c sq t cap fl,
      m.fromSq = sq ∧ m.toSq = t ∧ m.piece = PType.p ∧
      (m.promotion.isSome → m.flag = MFlag.normal) ∧
      (promoRank c (rankOf t) = true → m.promotion.isSome) := by
  intro m hm
  simp only [addPawnMove] at hm
  split at hm
  · simp only [List.mem_map] at hm
    obtain ⟨pp, -, rfl⟩ := hm
    exact ⟨rfl, rfl, rfl, fun _ => rfl, fun _ => rfl⟩
  · simp only [List.mem_singleton] at hm
    subst hm
    rename_i hfalse
    exact ⟨rfl, rfl, rfl, by simp, fun hc => absurd hc hfalse⟩

theorem pawnGen_spec (p : Position) (sq : Nat) (c : Color) :
    ∀ m ∈ pawnGen p sq c, GenOk sq m ∧ m.piece = PType.p := by
  intro m hm
  cases c <;>
  · simp only [pawnGen, reduceIte, List.mem_append] at hm
    rcases hm with ((h | h) | h) | h <;>
      (repeat' split at h) <;>
      first
        | exact absurd h (List.not_mem_nil m)
        | (obtain ⟨h1, h2, h3, h4, -⟩ := addPawnMove_spec _ _ _ _ _ _ h
           refine ⟨⟨h1, ?_, h4⟩, h3⟩
           rw [h2]
           simp only [sqOf, fileOf, rankOf, onBoard, decide_eq_true_eq] at *
           omega)
        | (simp only [List.mem_singleton] at h
           subst h
           refine ⟨⟨rfl, ?_, by simp⟩, rfl⟩
           simp only [sqOf, fileOf, rankOf, onBoard, decide_eq_true_eq] at *
           omega)

theorem pawnGen_promo (p : Position) (sq : Nat) (c : Color)
    (hep : ∀ e, p.ep = some e → rankOf e = 2 ∨ rankOf e = 5) :
    ∀ m ∈ pawnGen p sq c, promoRank c (rankOf m.toSq) = true →
      m.promotion.isSome := by
  intro m hm hrank
  cases c <;>
  · simp only [pawnGen, reduceIte, List.mem_append] at hm
    rcases hm with ((h | h) | h) | h <;>
      (repeat' split at h) <;>
      first
        | exact absurd h (List.not_mem_nil m)
        | (obtain ⟨-, h2, -, -, h5⟩ := addPawnMove_spec _ _ _ _ _ _ h
           exact h5 (by rw [← h2]; exact hrank))
        | (simp only [List.mem_singleton] at h
           subst h
           exfalso
           simp only [promoRank, decide_eq_true_eq, reduceIte, reduceCtorEq,
             if_true, if_false, sqOf, fileOf, rankOf] at hrank
           (try simp only [sqOf, fileOf, rankOf] at *)
           first
             | omega
             | (rcases hep _ (by assumption) with h25 | h25 <;> omega))

theorem stepGen_spec (p : Position) (sq : Nat) (c : Color) (pt : PType)
    (offs : List (Int × Int)) :
    ∀ m ∈ stepGen p sq c pt offs,
      GenOk sq m ∧ m.piece = pt ∧ m.promotion = none := by
  intro m hm
  simp only [stepGen, List.mem_filterMap] at hm
  obtain ⟨o, -, ho⟩ := hm
  repeat' split at ho
  all_goals first
    | simp only [reduceCtorEq] at ho
    | ((try simp only [Option.some.injEq] at ho)
       subst ho
       refine ⟨⟨rfl, ?_, by simp⟩, rfl, rfl⟩
       refine sqOf_lt _ _ ?_
       assumption)

theorem slideAux_spec (b : Board) (c : Color) (src : Nat) (pt : PType)
    (df dr : Int) : ∀ (fuel : Nat) (fi ra : Int),
    ∀ m ∈ slideAux b c src pt fi ra df dr fuel,
      GenOk src m ∧ m.piece = pt ∧ m.promotion = none := by
  intro fuel
  induction fuel with
  | zero => intro fi ra m hm; simp [slideAux] at hm
  | succ n ih =>
    intro fi ra m hm
    simp only [slideAux] at hm
    split at hm
    · rename_i hob
      split at hm
      · rcases List.mem_cons.mp hm with rfl | hm'
        · exact ⟨⟨rfl, sqOf_lt _ _ hob, by simp⟩, rfl, rfl⟩
        · exact ih _ _ _ hm'
      · split at hm
        · simp at hm
        · simp only [List.mem_singleton] at hm
          subst hm
          exact ⟨⟨rfl, sqOf_lt _ _ hob, by simp⟩, rfl, rfl⟩
    · simp at hm

theorem slideGen_spec (p : Position) (sq : Nat) (c : Color) (pt : PType)
    (dirs : List (Int × Int)) :
    ∀ m ∈ slideGen p sq c pt dirs,
      GenOk sq m ∧ m.piece = pt ∧ m.promotion = none := by
  intro m hm
  simp only [slideGen, List.mem_flatMap] at hm
  obtain ⟨d, -, hd⟩ := hm
  exact slideAux_spec p.board c sq pt d.1 d.2 7 _ _ m hd

theorem castleGen_spec (p : Position) (sq : Nat) (c : Color) :
    ∀ m ∈ castleGen p sq c,
      GenOk sq m ∧ m.piece = PType.k ∧ m.promotion = none := by
  intro m hm
  simp only [castleGen, List.mem_append] at hm
  rcases hm with h | h <;> (repeat' split at h) <;>
    first
      | exact absurd h (List.not_mem_nil m)
      | (simp only [List.mem_singleton] at h
         subst h
         rename_i hc
         simp only [Bool.and_eq_true] at hc
         refine ⟨⟨rfl, ?_, by simp⟩, rfl, rfl⟩
         simp only [sqOf, fileOf, rankOf, onBoard, decide_eq_true_eq] at hc ⊢
         omega)

theorem genFor_spec (p : Position) (sq : Nat) (pc : Piece) :
    ∀ m ∈ genFor p sq pc, GenOk sq m ∧ m.piece = pc.ptype := by
  intro m hm
  cases hpt : pc.ptype <;> rw [genFor, hpt] at hm
  · exact pawnGen_spec p sq pc.color m hm
  · exact ⟨(stepGen_spec p sq pc.color _ _ m hm).1,
      (stepGen_spec p sq pc.color _ _ m hm).2.1⟩
  · exact ⟨(slideGen_spec p sq pc.color _ _ m hm).1,
      (slideGen_spec p sq pc.color _ _ m hm).2.1⟩
  · exact ⟨(slideGen_spec p sq pc.color _ _ m hm).1,
      (slideGen_spec p sq pc.color _ _ m hm).2.1⟩
  · exact ⟨(slideGen_spec p sq pc.color _ _ m hm).1,
      (slideGen_spec p sq pc.color _ _ m hm).2.1⟩
  · rcases List.mem_append.mp hm with h | h
    · exact ⟨(stepGen_spec p sq pc.color _ _ m h).1,
        (stepGen_spec p sq pc.color _ _ m h).2.1⟩
    · exact ⟨(castleGen_spec p sq pc.color m h).1,
        (castleGen_spec p sq pc.color m h).2.1⟩

theorem genFor_promo (p : Position) (sq : Nat) (pc : Piece)
    (hep : ∀ e, p.ep = some e → rankOf e = 2 ∨ rankOf e = 5) :
    ∀ m ∈ genFor p sq pc, m.piece = PType.p →
      promoRank pc.color (rankOf m.toSq) = true → m.promotion.isSome := by
  intro m hm hp hrank
  cases hpt : pc.ptype <;> rw [genFor, hpt] at hm
  · exact pawnGen_promo p sq pc.color hep m hm hrank
  · exact absurd ((stepGen_spec p sq pc.color _ _ m hm).2.1.symm.trans hp)
      (by decide)
  · exact absurd ((slideGen_spec p sq pc.color _ _ m hm).2.1.symm.trans hp)
      (by decide)
  · exact absurd ((slideGen_spec p sq pc.color _ _ m hm).2.1.symm.trans hp)
      (by decide)
  · exact absurd ((slideGen_spec p sq pc.color _ _ m hm).2.1.symm.trans hp)
      (by decide)
  · rcases List.mem_append.mp hm with h | h
    · exact absurd ((stepGen_spec p sq pc.color _ _ m h).2.1.symm.trans hp)
        (by decide)
    · exact absurd ((castleGen_spec p sq pc.color m h).2.1.symm.trans hp)
        (by decide)

theorem movesFromSq_spec (p : Position) (sq : Nat) :
    ∀ m ∈ movesFromSq p sq, GenOk sq m ∧
      ∃ pc, pieceAt p.board sq = some pc ∧ pc.color = p.turn ∧
        m.piece = pc.ptype := by
  intro m hm
  unfold movesFromSq at hm
  split at hm
  · simp at hm
  · rename_i pc hpc
    split at hm
    · rename_i hcol
      exact ⟨(genFor_spec p sq pc m hm).1, pc, hpc, hcol,
        (genFor_spec p sq pc m hm).2⟩
    · simp at hm

theorem movesFromSq_promo (p : Position) (sq : Nat)
    (hep : ∀ e, p.ep = some e → rankOf e = 2 ∨ rankOf e = 5) :
    ∀ m ∈ movesFromSq p sq, m.piece = PType.p →
      promoRank p.turn (rankOf m.toSq) = true → m.promotion.isSome := by
  intro m hm hp hrank
  unfold movesFromSq at hm
  split at hm
  · simp at hm
  · rename_i pc hpc
    split at hm
    · rename_i hcol
      exact genFor_promo p sq pc hep m hm hp (by rwa [hcol])
    · simp at hm

theorem mem_legalMoves (p : Position) (m : IMove) (h : m ∈ legalMoves p) :
    m ∈ movesFromSq p m.fromSq := by
  have h1 := (List.mem_filter.mp h).1
  simp only [List.mem_flatMap] at h1
  obtain ⟨sq, -, hsq⟩ := h1
  have := (movesFromSq_spec p sq m hsq).1.1
  rwa [this]

theorem findMoveObj_some (ms : List IMove) (f t : Nat) (promo : Option PType)
    (m : IMove) (h : findMoveObj ms f t promo = some m) :
    m ∈ ms ∧ m.fromSq = f ∧ m.toSq = t ∧
      (m.promotion = none ∨ promo = m.promotion) := by
  have hmem := List.mem_of_find?_eq_some h
  have hpred := List.find?_some h
  simp only [decide_eq_true_eq] at hpred
  exact ⟨hmem, hpred⟩

theorem length_applyMove (p : Position) (m : IMove) :
    (applyMove p m).board.length = p.board.length := by
  simp only [applyMove]
  (repeat' split) <;> simp [List.length_set]

theorem pieceAt_applyMove_to (p : Position) (m : IMove)
    (hto : m.toSq < p.board.length) (hfl : m.flag = MFlag.normal) :
    pieceAt (applyMove p m).board m.toSq =
      some ⟨p.turn, m.promotion.getD m.piece⟩ := by
  simp only [applyMove, hfl, reduceCtorEq, if_false]
  rw [pieceAt, List.getD_eq_getElem?_getD]
  rw [List.getElem?_set_self (by simpa [List.length_set] using hto)]
  rfl

theorem findMoveObj_none_of_badOrigin (p : Position) (f t : Nat)
    (promo : Option PType)
    (hbad : ∀ pc, pieceAt p.board f = some pc → ¬pc.color = p.turn) :
    findMoveObj (legalMoves p) f t promo = none := by
  cases hfind : findMoveObj (legalMoves p) f t promo with
  | none => rfl
  | some m =>
    exfalso
    obtain ⟨hmem, hf, -, -⟩ := findMoveObj_some _ _ _ _ _ hfind
    have hmem2 := mem_legalMoves p m hmem
    rw [hf] at hmem2
    obtain ⟨-, pc, hpc, hcol, -⟩ := movesFromSq_spec p f m hmem2
    exact hbad pc hpc hcol

theorem moveObj_none_of_badOrigin (g : Game) (f t : Nat) (promo : Option PType)
    (hbad : ∀ pc, pieceAt g.pos.board f = some pc → ¬pc.color = g.pos.turn) :
    g.moveObj f t promo = none := by
  unfold Game.moveObj
  rw [findMoveObj_none_of_badOrigin g.pos f t promo hbad]

theorem fenCopy_pos (g : Game) (h : WFPos g.pos) : fenCopy g = ⟨g.pos, []⟩ := by
  unfold fenCopy
  rw [ofFen_toFen g.pos h]
  rfl

theorem fenCopy_hist (g : Game) : (fenCopy g).hist = [] := rfl

/-! ## Claim theorems -/

/-- C3: on every failure of the advice call — the provider call rejecting, or
its text being malformed or unparseable JSON (in either variant the `try`
block then produces no JSON value) — `getCoachAdvice` resolves with the fixed
fallback advice, whose evaluation is `"neutral"` and whose explanation is a
non-empty string; no exception escapes (the model is a total function). -/
theorem advice_failure_fallback (o : Outcome) :
    (adviceAttemptA Outcome.failure = none ∧
      adviceAttemptB Outcome.failure = none) ∧
    (adviceAttemptA o = none →
      getCoachAdviceA o = fallbackAdvice ∧
      (getCoachAdviceA o).evaluation = some (JVal.str "neutral") ∧
      ∃ msg : String, (getCoachAdviceA o).explanation = some (JVal.str msg) ∧
        msg ≠ "") ∧
    (adviceAttemptB o = none →
      getCoachAdviceB o = fallbackAdvice ∧
      (getCoachAdviceB o).evaluation = some (JVal.str "neutral") ∧
      ∃ msg : String, (getCoachAdviceB o).explanation = some (JVal.str msg) ∧
        msg ≠ "") := by
  refine ⟨⟨rfl, rfl⟩, fun h => ?_, fun h => ?_⟩
  · unfold getCoachAdviceA
    rw [h]
    exact ⟨rfl, rfl, fallbackExplanation, rfl, by decide⟩
  · unfold getCoachAdviceB
    rw [h]
    exact ⟨rfl, rfl, fallbackExplanation, rfl, by decide⟩

/-- C3 witness: a failing call and an unparseable reply both yield the
fallback advice. -/
theorem advice_failure_fallback_witness :
    getCoachAdviceA (Outcome.success (some "oops")) = fallbackAdvice ∧
    getCoachAdviceB Outcome.failure = fallbackAdvice :=
  ⟨((advice_failure_fallback (Outcome.success (some "oops"))).2.1 (by decide)).1,
   ((advice_failure_fallback Outcome.failure).2.2 (by decide)).1⟩

/-- C8: when the provider call succeeds and its text parses, both variants
return the parsed JSON reinterpreted as advice with no validation against
the `CoachAdvice` shape; in particular the first variant replaces an absent
(or empty) text by `"\x7b\x7d"`, giving an object that lacks the mandatory
`explanation` and `evaluation` fields, and in either variant a well-formed
reply whose evaluation is outside the four-value enumeration is returned as
is. -/
theorem advice_no_validation :
    (∀ (o : Outcome) (j : Json), adviceAttemptA o = some j →
      getCoachAdviceA o = jsAdviceOfJson j) ∧
    (∀ (o : Outcome) (j : Json), adviceAttemptB o = some j →
      getCoachAdviceB o = jsAdviceOfJson j) ∧
    (getCoachAdviceA (Outcome.success none) = jsAdviceOfJson (Json.obj []) ∧
      (getCoachAdviceA (Outcome.success none)).explanation = none ∧
      (getCoachAdviceA (Outcome.success none)).evaluation = none) ∧
    ((getCoachAdviceA (Outcome.success (some
        "\x7b\"explanation\":\"hi\",\"evaluation\":\"excellent\"\x7d"))).evaluation =
          some (JVal.str "excellent") ∧
      (getCoachAdviceB (Outcome.success (some
        "\x7b\"explanation\":\"hi\",\"evaluation\":\"excellent\"\x7d"))).evaluation =
          some (JVal.str "excellent") ∧
      JVal.str "excellent" ∉
        [JVal.str "good", JVal.str "neutral", JVal.str "bad",
          JVal.str "mistake"]) := by
  refine ⟨fun o j h => ?_, fun o j h => ?_,
    ⟨by decide, by decide, by decide⟩, by decide, by decide, by decide⟩
  · unfold getCoachAdviceA
    rw [h]
  · unfold getCoachAdviceB
    rw [h]

/-- C8 witness: a successful reply `"true"` is returned by both variants as
the parsed JSON value, unvalidated. -/
theorem advice_no_validation_witness :
    getCoachAdviceA (Outcome.success (some "true")) =
      jsAdviceOfJson (Json.atom (JVal.bool true)) ∧
    getCoachAdviceB (Outcome.success (some "true")) =
      jsAdviceOfJson (Json.atom (JVal.bool true)) :=
  ⟨advice_no_validation.1 (Outcome.success (some "true"))
    (Json.atom (JVal.bool true)) (by decide),
   advice_no_validation.2.1 (Outcome.success (some "true"))
    (Json.atom (JVal.bool true)) (by decide)⟩

/-- C4: a move attempt whose origin square is empty or holds a piece not
belonging to the side to move is rejected with `false`, and every rejected
attempt leaves the application state (game position, history, tallies,
requests) unchanged; the candidate move only ever runs on the fresh copy,
which becomes the authoritative state only on success. -/
theorem makeMove_rejection (s : AppState) (f t : Nat) (promo : Option PType) :
    (∀ (ok : Bool) (s' : AppState),
      makeMove s f t promo = (ok, s') → ok = false → s' = s) ∧
    (WFPos s.game.pos →
      (pieceAt s.game.pos.board f = none ∨
        ∃ pc, pieceAt s.game.pos.board f = some pc ∧
          pc.color ≠ s.game.pos.turn) →
      makeMove s f t promo = (false, s)) := by
  constructor
  · intro ok s' h hok
    unfold makeMove at h
    rcases hm : (fenCopy s.game).moveObj f t promo with _ | ⟨san, g2⟩ <;>
      rw [hm] at h <;> cases h
    · rfl
    · exact absurd hok (by decide)
  · intro hwf horig
    unfold makeMove
    rw [fenCopy_pos s.game hwf]
    rw [moveObj_none_of_badOrigin ⟨s.game.pos, []⟩ f t promo ?_]
    intro pc hpc
    rcases horig with hnone | ⟨pc', hpc', hcol⟩
    · rw [hnone] at hpc
      exact absurd hpc (by simp)
    · rw [hpc'] at hpc
      cases hpc
      exact hcol

set_option maxHeartbeats 4000000 in
/-- C4 witness: from the initial state, a move from the empty square e3 is
rejected and the state is unchanged. -/
theorem makeMove_rejection_witness :
    makeMove appInit 20 28 (some PType.q) = (false, appInit) :=
  (makeMove_rejection appInit 20 28 (some PType.q)).2 (by decide)
    (Or.inl (by decide))

theorem capturedList_count (cnt : PType → Nat) (t : PType) :
    (capturedList cnt).count t = standardCount t - cnt t := by
  cases t <;>
    simp [capturedList, typeOrder, List.count_append, List.count_replicate]

/-- C5 (amended): for every board and side, the derived captured-piece tally
for each piece type equals the standard starting count minus the on-board
count clamped below at zero, `max 0 (standard - onBoard)` (the code's loop
body does not run for a negative difference), and is non-negative. -/
theorem captured_tally_clamped (b : Board) (c : Color) (t : PType) :
    ((capturedFor c b).count t : Int) =
      max 0 ((standardCount t : Int) - (countColor c t b : Int)) ∧
    (0 : Int) ≤ ((capturedFor c b).count t : Int) := by
  have h := capturedList_count (fun t' => countColor c t' b) t
  unfold capturedFor
  rw [h]
  constructor
  · omega
  · omega

/-- C6 (amended): `undoMove` (second variant) clears the advice and the
selection state and issues no new advice request; `undo` (first variant)
clears the selection state and issues no new advice request, but leaves the
held advice unchanged. -/
theorem undo_clears (s : AppState) :
    (appUndoB s).advice = none ∧
    (appUndoB s).moveFrom = none ∧
    (appUndoB s).optionSquares = [] ∧
    (appUndoB s).requests = s.requests ∧
    (appUndoA s).advice = s.advice ∧
    (appUndoA s).moveFrom = none ∧
    (appUndoA s).optionSquares = [] ∧
    (appUndoA s).requests = s.requests := by
  unfold appUndoA appUndoB
  exact ⟨rfl, rfl, rfl, rfl, rfl, rfl, rfl, rfl⟩

set_option maxHeartbeats 4000000 in
/-- C7: from the initial state, the move e2-e4 succeeds; afterwards the
recorded history is `["e4"]`, the side to move is Black, both captured
tallies are empty, and exactly one advice request was issued, carrying the
post-move FEN, the move notation `"e4"` and the turn `"b"`; in general every
accepted move appends exactly one request carrying the post-move position,
the accepted move's notation (the last history entry) and the side to move
after the move. -/
theorem first_move_advice_request :
    ((makeMove appInit 12 28 (some PType.q)).1,
      (makeMove appInit 12 28 (some PType.q)).2.moveHistory,
      (makeMove appInit 12 28 (some PType.q)).2.game.pos.turn,
      (makeMove appInit 12 28 (some PType.q)).2.capturedW,
      (makeMove appInit 12 28 (some PType.q)).2.capturedB) =
    (true, ["e4"], Color.b, [], []) ∧
    (makeMove appInit 12 28 (some PType.q)).2.requests =
      [("rnbqkbnr/pppppppp/8/8/4P3/8/PPPP1PPP/RNBQKBNR b KQkq e3 0 1",
        "e4", "b")] ∧
    (∀ (s : AppState) (f t : Nat) (promo : Option PType) (s' : AppState),
      makeMove s f t promo = (true, s') →
      ∃ san, s'.requests =
          s.requests ++ [(toFen s'.game.pos, san, turnStr s'.game.pos.turn)] ∧
        s'.moveHistory.getLast? = some san) := by
  refine ⟨by decide, by decide, ?_⟩
  intro s f t promo s' h
  unfold makeMove at h
  rcases hm : (fenCopy s.game).moveObj f t promo with _ | ⟨san, g2⟩ <;>
    rw [hm] at h
  · exact absurd h (by simp)
  · cases h
    refine ⟨san, rfl, ?_⟩
    unfold Game.moveObj at hm
    rcases hf : findMoveObj (legalMoves (fenCopy s.game).pos) f t promo with
      _ | m <;> rw [hf] at hm
    · exact absurd hm (by simp)
    · simp only [Option.some.injEq, Prod.mk.injEq] at hm
      obtain ⟨hsan, hg2⟩ := hm
      show g2.historyList.getLast? = some san
      rw [← hg2]
      simp [Game.historyList, fenCopy_hist, hsan]

set_option maxHeartbeats 4000000 in
/-- C7 witness: the universal clause instantiated at the concrete first
move. -/
theorem first_move_advice_request_witness :
    ∃ san, (makeMove appInit 12 28 (some PType.q)).2.requests =
        appInit.requests ++
          [(toFen (makeMove appInit 12 28 (some PType.q)).2.game.pos, san,
            turnStr (makeMove appInit 12 28 (some PType.q)).2.game.pos.turn)] ∧
      (makeMove appInit 12 28 (some PType.q)).2.moveHistory.getLast? =
        some san :=
  first_move_advice_request.2.2 appInit 12 28 (some PType.q)
    (makeMove appInit 12 28 (some PType.q)).2 (by decide)

set_option maxHeartbeats 8000000 in
/-- C1 (failing input): from the start, after the two accepted moves e2-e4
and e7-e5 the recorded `moveHistory` holds only the last move's notation,
`["e5"]`, not the full play-order history `["e4", "e5"]`: each accepted move
recomputes the history from a fresh engine copy whose construction from FEN
discarded everything before the current move. -/
theorem history_truncated_after_two_moves :
    ((makeMove appInit 12 28 (some PType.q)).1,
      (makeMove ((makeMove appInit 12 28 (some PType.q)).2) 52 36
        (some PType.q)).1,
      (makeMove ((makeMove appInit 12 28 (some PType.q)).2) 52 36
        (some PType.q)).2.moveHistory) = (true, true, ["e5"]) ∧
    (["e5"] : List String) ≠ ["e4", "e5"] :=
  ⟨by decide, by decide⟩

set_option maxHeartbeats 8000000 in
/-- C2 (failing input): undo on the starting state is a no-op and raises no
error (as claimed), but after one accepted move both undo variants leave the
game position unchanged (Black still to move) instead of restoring the
starting position: undo runs on a fresh copy built from the current FEN,
whose history stack is empty, so the engine's `undo` does nothing. -/
theorem undo_no_op_after_move :
    appUndoA appInit = appInit ∧
    ((appUndoA (makeMove appInit 12 28 (some PType.q)).2).game.pos,
      (appUndoB (makeMove appInit 12 28 (some PType.q)).2).game.pos) =
      ((makeMove appInit 12 28 (some PType.q)).2.game.pos,
        (makeMove appInit 12 28 (some PType.q)).2.game.pos) ∧
    (makeMove appInit 12 28 (some PType.q)).2.game.pos.turn = Color.b ∧
    (makeMove appInit 12 28 (some PType.q)).2.game.pos ≠ startPos :=
  ⟨by decide, by decide, by decide, by decide⟩

set_option maxHeartbeats 8000000 in
/-- C6 counterexample: in a state holding advice (the first move was
accepted and its advice promise resolved), the first variant's `undo` leaves
the advice in place instead of clearing it. -/
theorem undo_keeps_advice_counterexample :
    (appUndoA (resolveAdvice (makeMove appInit 12 28 (some PType.q)).2
        fallbackAdvice)).advice = some fallbackAdvice ∧
    some fallbackAdvice ≠ (none : Option JsAdvice) :=
  ⟨by decide, by decide⟩

/-- The nine-ply line 1. a4 b5 2. axb5 a6 3. bxa6 Bb7 4. axb7 Nc6
5. bxa8=Q, after which White has two queens on the board. -/
def promoLine : List (Nat × Nat) :=
  [(8, 24), (49, 33), (24, 33), (48, 40), (33, 40), (58, 49), (40, 49),
   (57, 42), (49, 56)]

/-- Play a list of from/to moves through `makeMove` (promotion `q`, as both
input paths submit it), recording whether every move was accepted. -/
def playAll (s : AppState) (ms : List (Nat × Nat)) : Bool × AppState :=
  ms.foldl (fun acc mv =>
    let r := makeMove acc.2 mv.1 mv.2 (some PType.q)
    (acc.1 && r.1, r.2)) (true, s)

set_option maxHeartbeats 16000000 in
/-- C5 counterexample: a reachable state (every move of `promoLine` is
accepted from the initial state) in which White has two queens on the board;
the white captured tally records zero captured queens, whereas the claimed
per-type equality would require the impossible value 1 - 2. -/
theorem captured_tally_counterexample :
    ((playAll appInit promoLine).1,
      countColor Color.w PType.q (playAll appInit promoLine).2.game.pos.board,
      (playAll appInit promoLine).2.capturedW.count PType.q) = (true, 2, 0) ∧
    ¬(((0 : Nat) : Int) = (standardCount PType.q : Int) - ((2 : Nat) : Int)) :=
  ⟨by decide, by decide⟩

theorem makeMove_game_eq (s : AppState) (f t : Nat) (promo : Option PType)
    (s' : AppState) (h : makeMove s f t promo = (true, s')) :
    ∃ m, findMoveObj (legalMoves (fenCopy s.game).pos) f t promo = some m ∧
      s'.game.pos = applyMove (fenCopy s.game).pos m := by
  unfold makeMove at h
  rcases hm : (fenCopy s.game).moveObj f t promo with _ | ⟨san, g2⟩ <;>
    rw [hm] at h
  · exact absurd h (by simp)
  · cases h
    unfold Game.moveObj at hm
    rcases hf : findMoveObj (legalMoves (fenCopy s.game).pos) f t promo with
      _ | m <;> rw [hf] at hm
    · exact absurd hm (by simp)
    · refine ⟨m, rfl, ?_⟩
      simp only [Option.some.injEq, Prod.mk.injEq] at hm
      obtain ⟨-, hg2⟩ := hm
      rw [← hg2]

/-- C9: for every move attempt submitted without an explicit promotion
choice the application supplies the default `promotion: 'q'` (this is what
`onDrop` and both click-to-move paths pass to `makeMove`), so an accepted
move of a pawn into its final rank places a queen of the mover's color on
the destination square. -/
theorem default_promotion_queen (s : AppState) (f t : Nat) (s' : AppState)
    (c : Color) (hwf : WFPos s.game.pos)
    (hmk : makeMove s f t (some PType.q) = (true, s'))
    (hpawn : pieceAt s.game.pos.board f = some ⟨c, PType.p⟩)
    (hlast : promoRank c (rankOf t) = true) :
    pieceAt s'.game.pos.board t = some ⟨c, PType.q⟩ ∧
    onDrop s f t = makeMove s f t (some PType.q) ∧
    (s.moveFrom = some f →
      onSquareClickA s t = s' ∧ onSquareClickB s t = s') := by
  have hcopy : fenCopy s.game = ⟨s.game.pos, []⟩ := fenCopy_pos _ hwf
  obtain ⟨m, hfind0, hpos0⟩ := makeMove_game_eq s f t (some PType.q) s' hmk
  rw [hcopy] at hfind0 hpos0
  have hfind : findMoveObj (legalMoves s.game.pos) f t (some PType.q) =
      some m := hfind0
  have hpos : s'.game.pos = applyMove s.game.pos m := hpos0
  obtain ⟨hmem, hfrom, hto, hpromo⟩ := findMoveObj_some _ _ _ _ _ hfind
  have hmm := mem_legalMoves s.game.pos m hmem
  rw [hfrom] at hmm
  obtain ⟨⟨-, hto64, hflag⟩, pc, hpc, hcol, hpiece⟩ :=
    movesFromSq_spec s.game.pos f m hmm
  rw [hpawn] at hpc
  have hpceq : pc = ⟨c, PType.p⟩ := (Option.some.inj hpc).symm
  subst hpceq
  have hc : c = s.game.pos.turn := hcol
  have hmp : m.piece = PType.p := hpiece
  have hps : m.promotion.isSome := by
    refine movesFromSq_promo s.game.pos f
      (fun e he => (hwf.2 e he).2) m hmm hmp ?_
    rw [hto, ← hc]
    exact hlast
  rcases hpromo with hnone | hq
  · rw [hnone] at hps
    exact absurd hps (by decide)
  · have hfl := hflag hps
    have hplace := pieceAt_applyMove_to s.game.pos m
      (by rw [hwf.1]; exact hto64) hfl
    rw [← hq] at hplace
    refine ⟨?_, rfl, ?_⟩
    · rw [hpos, ← hto, hplace, hc]
      rfl
    · intro hmf
      constructor
      · unfold onSquareClickA
        rw [hmf]
        simp [hmk]
      · unfold onSquareClickB
        rw [hmf]
        simp [hmk]

/-- C9 witness position: White pawn on b7, White king e1, Black king h5,
White to move. -/
def c9pos : Position :=
  { board := (((List.replicate 64 (none : Option Piece)).set 4
      (some ⟨Color.w, PType.k⟩)).set 49 (some ⟨Color.w, PType.p⟩)).set 39
      (some ⟨Color.b, PType.k⟩)
    turn := Color.w
    castling := ⟨false, false, false, false⟩
    ep := none
    halfmoves := 3
    fullmoves := 40 }

/-- C9 witness application state. -/
def c9state : AppState := { appInit with game := ⟨c9pos, []⟩ }

set_option maxHeartbeats 4000000 in
/-- C9 witness: the accepted pawn move b7-b8 (submitted, as both input
paths do, with the default promotion `'q'`) leaves a white queen on b8. -/
theorem default_promotion_queen_witness :
    pieceAt ((makeMove c9state 49 57 (some PType.q)).2).game.pos.board 57 =
      some ⟨Color.w, PType.q⟩ :=
  (default_promotion_queen c9state 49 57
    (makeMove c9state 49 57 (some PType.q)).2 Color.w (by decide) (by decide)
    (by decide) (by decide)).1

/-- C10 (amended): with an origin selected, a click on a square holding a
piece of the side to move is always rejected as a move and re-evaluated as a
selection: the first variant always selects the clicked friendly square; the
second variant selects it when the piece has at least one legal move and
otherwise clears the selection. -/
theorem friendly_click_reselects (s : AppState) (f sq : Nat) (pc : Piece)
    (hmf : s.moveFrom = some f)
    (hpc : pieceAt s.game.pos.board sq = some pc)
    (hcol : pc.color = s.game.pos.turn)
    (hrej : (makeMove s f sq (some PType.q)).1 = false) :
    (onSquareClickA s sq).moveFrom = some sq ∧
    (legalMovesFrom s.game.pos sq ≠ [] →
      (onSquareClickB s sq).moveFrom = some sq) ∧
    (legalMovesFrom s.game.pos sq = [] →
      (onSquareClickB s sq).moveFrom = none) := by
  refine ⟨?_, ?_, ?_⟩
  · unfold onSquareClickA
    rw [hmf]
    simp [hrej, hpc, hcol]
  · intro hne
    unfold onSquareClickB getMoveOptionsB
    rw [hmf]
    simp [hrej, hne]
  · intro hemp
    unfold onSquareClickB getMoveOptionsB
    rw [hmf]
    simp [hrej, hemp]

set_option maxHeartbeats 8000000 in
/-- C10 witness: origin e2 selected; a click on the friendly pawn d2 is
rejected as a move and becomes the new selection in both variants. -/
theorem friendly_click_reselects_witness :
    (onSquareClickA { appInit with moveFrom := some 12 } 11).moveFrom =
      some 11 ∧
    (onSquareClickB { appInit with moveFrom := some 12 } 11).moveFrom =
      some 11 :=
  ⟨(friendly_click_reselects { appInit with moveFrom := some 12 } 12 11
      ⟨Color.w, PType.p⟩ rfl (by decide) (by decide) (by decide)).1,
   (friendly_click_reselects { appInit with moveFrom := some 12 } 12 11
      ⟨Color.w, PType.p⟩ rfl (by decide) (by decide) (by decide)).2.1
      (by decide)⟩

set_option maxHeartbeats 8000000 in
/-- C10 counterexample: in the second variant, after selecting e2 a click on
the friendly rook a1 (which has no legal moves in the starting position) is
rejected as a move and then *clears* the selection instead of re-selecting
a1. -/
theorem friendly_click_cleared_counterexample :
    (onSquareClickB appInit 12).moveFrom = some 12 ∧
    pieceAt (onSquareClickB appInit 12).game.pos.board 0 =
      some ⟨Color.w, PType.r⟩ ∧
    (onSquareClickB appInit 12).game.pos.turn = Color.w ∧
    (makeMove (onSquareClickB appInit 12) 12 0 (some PType.q)).1 = false ∧
    (onSquareClickB (onSquareClickB appInit 12) 0).moveFrom = none ∧
    (none : Option Nat) ≠ some 0 :=
  ⟨by decide, by decide, by decide, by decide, by decide, by decide⟩

end ChessAcademy
